import Mathlib

/-!
Verification of the field-simulation core of the ParametricModeler repository.

The definitions below are a shallow embedding of the script code of
`src/Scene.svelte` (field model `vf`, integrator `updatePuck`, charge store
operations, field sampler, reset effect).  JavaScript numbers are modelled as
real numbers; `Math.hypot` and `Math.pow` are modelled by `Real.sqrt` and
`Real.rpow`.  The `leapfrog` routine is imported by the scene from
`$lib/mathutils3d.js`, a file that is not part of the sources, and is
modelled from the specification.
-/

namespace FieldSim

/-- A triple of real numbers, modelling a JavaScript `[x, y, z]` triple. -/
abbrev Vec3 : Type := ℝ × ℝ × ℝ

/-- Embedding of `Math.hypot(a, b, c)`. -/
noncomputable def hypot3 (a b c : ℝ) : ℝ := Real.sqrt (a ^ 2 + b ^ 2 + c ^ 2)

/-- Embedding of `Math.pow(x, y)` for the nonnegative bases used by the scene. -/
noncomputable def jpow (x y : ℝ) : ℝ := x ^ y

/-- A charge source, as stored in the `particles` array of `Scene.svelte`:
`{ id, x, y, z, charge }`. -/
structure Particle where
  id : ℤ
  x : ℝ
  y : ℝ
  z : ℝ
  charge : ℝ

/-- The edit-ghost state of `Scene.svelte`: the flags `editMode` and
`editingParticleId` together with the live position `editingLivePosition`. -/
structure EditState where
  editMode : Bool
  editingParticleId : Option ℤ
  livePos : Vec3

/-- The edit state in which no ghost edit is active. -/
def noEdit : EditState := ⟨false, none, (0, 0, 0)⟩

/-- The softening radius constant `RADIUS = 2` of `Scene.svelte`. -/
def RADIUS : ℝ := 2

/-- The effective position of a particle used by `vf`: the ghost position
`editingLivePosition` when `editMode && p.id === editingParticleId`, the
stored position otherwise (lines 84 to 92 of `Scene.svelte`). -/
def effPos (e : EditState) (p : Particle) : Vec3 :=
  if e.editMode = true ∧ e.editingParticleId = some p.id then e.livePos
  else (p.x, p.y, p.z)

/-- One pass of the accumulation loop of `vf` (lines 82 to 106 of
`Scene.svelte`): displacement, distance, softened factor, and the three
`vec[i] += 10 * p.charge * d_i * factor` updates. -/
noncomputable def vfStep (e : EditState) (decay : ℝ) (pt : Vec3) (acc : Vec3)
    (p : Particle) : Vec3 :=
  let ep := effPos e p
  let dx := pt.1 - ep.1
  let dy := pt.2.1 - ep.2.1
  let dz := pt.2.2 - ep.2.2
  let r := hypot3 dx dy dz
  let factor :=
    if r < RADIUS then jpow (r / RADIUS) 2 / jpow r (decay + 1)
    else 1 / jpow r (decay + 1)
  (acc.1 + 10 * p.charge * dx * factor,
   acc.2.1 + 10 * p.charge * dy * factor,
   acc.2.2 + 10 * p.charge * dz * factor)

/-- Embedding of the field model `vf(x, y, z)` of `Scene.svelte`: a fold of
`vfStep` over the particle list starting from the zero accumulator. -/
noncomputable def vf (e : EditState) (decay : ℝ) (ps : List Particle)
    (pt : Vec3) : Vec3 :=
  ps.foldl (vfStep e decay pt) (0, 0, 0)

/-- The per-source contribution as the specification words it: with
`d = point - effectivePosition(source)` and `r = |d|`, the contribution is
`k * charge * d * factor` with `k = 10` and the two-branch softened factor. -/
noncomputable def specContribution (e : EditState) (decay : ℝ) (pt : Vec3)
    (p : Particle) : Vec3 :=
  let d : Vec3 := pt - effPos e p
  let r := hypot3 d.1 d.2.1 d.2.2
  let factor :=
    if r < 2 then jpow (r / 2) 2 / jpow r (decay + 1)
    else 1 / jpow r (decay + 1)
  (10 * p.charge * factor) • d

lemma vfStep_eq_add_contribution (e : EditState) (decay : ℝ) (pt acc : Vec3)
    (p : Particle) :
    vfStep e decay pt acc p = acc + specContribution e decay pt p := by
  simp only [vfStep, specContribution, RADIUS, Prod.mk_sub_mk, Prod.smul_mk,
    Prod.mk_add_mk, smul_eq_mul]
  obtain ⟨a1, a2, a3⟩ := acc
  obtain ⟨q1, q2, q3⟩ := pt
  obtain ⟨p1, p2, p3⟩ := effPos e p
  simp only [Prod.mk_sub_mk, Prod.smul_mk, Prod.mk_add_mk, smul_eq_mul]
  refine Prod.ext ?_ (Prod.ext ?_ ?_) <;> simp <;> ring_nf

lemma vf_foldl_eq (e : EditState) (decay : ℝ) (pt : Vec3) :
    ∀ (ps : List Particle) (acc : Vec3),
      ps.foldl (vfStep e decay pt) acc
        = acc + (ps.map (specContribution e decay pt)).sum := by
  intro ps
  induction ps with
  | nil => intro acc; simp
  | cons p rest ih =>
      intro acc
      simp only [List.foldl_cons, List.map_cons, List.sum_cons, ih,
        vfStep_eq_add_contribution, add_assoc]

/-- C1.  The field model `vf` returns the sum, over all sources, of the
specification contribution `k * charge * d * factor` with `k = 10`,
`d = point - effective source position`, `r = |d|`, softening radius `R = 2`
and the two-branch factor; in particular an empty source list yields the zero
vector. -/
theorem vf_eq_sum_of_contributions :
    (∀ (e : EditState) (decay : ℝ) (ps : List Particle) (pt : Vec3),
        vf e decay ps pt = (ps.map (specContribution e decay pt)).sum)
    ∧ (∀ (e : EditState) (decay : ℝ) (pt : Vec3),
        vf e decay [] pt = (0, 0, 0)) := by
  constructor
  · intro e decay ps pt
    simp [vf, vf_foldl_eq]
  · intro e decay pt
    simp [vf]

/-- The default single charge source of `Scene.svelte`:
`{ id: 1, x: 0, y: 2, z: 0, charge: -0.001 }`. -/
noncomputable def defaultParticle : Particle :=
  { id := 1, x := 0, y := 2, z := 0, charge := -0.001 }

/-- The derived value `particle_num` of `Scene.svelte` (line 223): the id of
the last particle plus one, or `1` when the list is empty. -/
def particle_num (ps : List Particle) : ℤ :=
  match ps.getLast? with
  | some p => p.id + 1
  | none => 1

/-- Embedding of `addParticle` (lines 225 to 233): append a particle with id
`particle_num` and the given position and charge. -/
def addParticle (ps : List Particle) (x y z c : ℝ) : List Particle :=
  ps ++ [{ id := particle_num ps, x := x, y := y, z := z, charge := c }]

/-- Embedding of `handleDoubleClickDelete` (lines 314 to 317): filter out the
particle with the given id. -/
def deleteParticle (ps : List Particle) (pid : ℤ) : List Particle :=
  ps.filter (fun p => p.id ≠ pid)

/-- Embedding of `confirmEdit` (lines 283 to 293): when `editingParticleId` is
truthy (non-null and nonzero), write the live edit position into the matching
particle; all other particles are unchanged. -/
def confirmEdit (eid : Option ℤ) (live : Vec3) (ps : List Particle) :
    List Particle :=
  match eid with
  | none => ps
  | some i =>
      if i = 0 then ps
      else ps.map (fun p =>
        if p.id = i then { p with x := live.1, y := live.2.1, z := live.2.2 }
        else p)

lemma foldl_congr_fn {α β : Type _} {f g : β → α → β} {l : List α} {a : β}
    (h : ∀ acc x, f acc x = g acc x) : l.foldl f a = l.foldl g a := by
  induction l generalizing a with
  | nil => rfl
  | cons x xs ih => simp only [List.foldl_cons, h, ih]

lemma vfStep_ghost (p1 q : Vec3) (decay : ℝ) (pt acc : Vec3) (p : Particle) :
    vfStep ⟨true, some 1, p1⟩ decay pt acc p
      = vfStep ⟨false, none, q⟩ decay pt acc
          (if p.id = 1 then { p with x := p1.1, y := p1.2.1, z := p1.2.2 }
           else p) := by
  by_cases h : p.id = 1
  · simp [vfStep, effPos, h]
  · have h' : ¬ ((1 : ℤ) = p.id) := fun hc => h hc.symm
    simp [vfStep, effPos, h, h']

/-- C5.  While a ghost edit is active for source id 1 at position `p1`, the
field model evaluates as if source 1 were at `p1` with no ghost active, and
`confirmEdit` commits exactly that replacement, leaving all other sources
unchanged. -/
theorem ghost_override_matches_replacement :
    ∀ (ps : List Particle) (p1 : Vec3) (decay : ℝ) (pt q : Vec3),
      vf ⟨true, some 1, p1⟩ decay ps pt
        = vf ⟨false, none, q⟩ decay
            (ps.map (fun p =>
              if p.id = 1 then { p with x := p1.1, y := p1.2.1, z := p1.2.2 }
              else p)) pt
      ∧ confirmEdit (some 1) p1 ps
        = ps.map (fun p =>
            if p.id = 1 then { p with x := p1.1, y := p1.2.1, z := p1.2.2 }
            else p) := by
  intro ps p1 decay pt q
  constructor
  · rw [vf, vf, List.foldl_map]
    exact foldl_congr_fn (fun acc p => vfStep_ghost p1 q decay pt acc p)
  · simp [confirmEdit]

/-- C2 evidence.  At a query point that coincides with the default source, the
displacement has length zero, the divisor `Math.pow(r, decay + 1)` of the
softened factor is zero (so the script divides by zero: no positive floor is
applied, and in IEEE arithmetic `0 / 0` is NaN), and the real-number embedding
of `vf` returns zero only because division by zero is zero by convention. -/
theorem vf_no_softening_floor_at_source :
    hypot3 ((0 : ℝ) - defaultParticle.x) ((2 : ℝ) - defaultParticle.y)
        ((0 : ℝ) - defaultParticle.z) = 0
    ∧ jpow (hypot3 ((0 : ℝ) - defaultParticle.x) ((2 : ℝ) - defaultParticle.y)
        ((0 : ℝ) - defaultParticle.z)) ((2 : ℝ) + 1) = 0
    ∧ vf noEdit 2 [defaultParticle] (0, 2, 0) = (0, 0, 0) := by
  have hx : ((0 : ℝ) - defaultParticle.x) = 0 := by
    simp [defaultParticle]
  have hy : ((2 : ℝ) - defaultParticle.y) = 0 := by
    simp [defaultParticle]
  have hz : ((0 : ℝ) - defaultParticle.z) = 0 := by
    simp [defaultParticle]
  have h0 : hypot3 (0 : ℝ) 0 0 = 0 := by
    simp [hypot3]
  have hdiv : jpow (0 : ℝ) ((2 : ℝ) + 1) = 0 := by
    rw [jpow, Real.zero_rpow (by norm_num)]
  refine ⟨by rw [hx, hy, hz, h0], by rw [hx, hy, hz, h0, hdiv], ?_⟩
  simp only [vf, List.foldl_cons, List.foldl_nil, vfStep, effPos, noEdit,
    defaultParticle]
  norm_num [h0, hdiv, RADIUS]

/-- Modelled from the spec: the `leapfrog` routine imported from
`$lib/mathutils3d.js` is not among the sources.  The specification describes
it as one symplectic (leapfrog/velocity-Verlet-style) sub-iteration of step
size `h` that evaluates the force function once per call; it receives the
force, the velocity, the position and the step and returns the updated
position and velocity (the caller reads positions from components 0 to 2 and
velocities from components 3 to 5).  It is modelled as the standard
kick-then-drift symplectic step. -/
noncomputable def leapfrog (f : Vec3 → Vec3) (vel pos : Vec3) (h : ℝ) :
    Vec3 × Vec3 :=
  let a := f pos
  let v2 := vel + h • a
  let x2 := pos + h • v2
  (x2, v2)

/-- The force function passed to `leapfrog` by `updatePuck` (line 139):
`vf(x, y, z).map(c => c * Math.pow(10, decay))`. -/
noncomputable def forceFn (e : EditState) (decay : ℝ) (ps : List Particle)
    (pt : Vec3) : Vec3 :=
  let w := vf e decay ps pt
  (w.1 * jpow 10 decay, w.2.1 * jpow 10 decay, w.2.2 * jpow 10 decay)

/-- Embedding of the `while (runningTime < dt)` loop of `updatePuck`
(lines 132 to 145), with an explicit fuel parameter for the number of loop
iterations; the returned pair records the final `runningTime` and state.
The state is a pair of position and velocity. -/
noncomputable def updateLoop (e : EditState) (decay : ℝ) (ps : List Particle)
    (dt : ℝ) : ℕ → ℝ → Vec3 × Vec3 → Option (ℝ × (Vec3 × Vec3))
  | 0, rt, s => if rt < dt then none else some (rt, s)
  | n + 1, rt, s =>
      if rt < dt then
        let hc := max 1e-8 (dt / max 10 (hypot3 s.2.1 s.2.2.1 s.2.2.2))
        let h := min hc (dt - rt)
        updateLoop e decay ps dt n (rt + h)
          ((fun t => leapfrog (forceFn e decay ps) t.2 t.1 h)^[10] s)
      else some (rt, s)

/-- The dynamic body of `Scene.svelte`: position, velocity and charge. -/
structure DynParticle where
  x : ℝ
  y : ℝ
  z : ℝ
  vx : ℝ
  vy : ℝ
  vz : ℝ
  charge : ℝ

/-- Embedding of `updatePuck(dt)` (lines 129 to 155): run the substep loop
from `runningTime = 0` on the state read from the puck, write the final state
back into the puck fields, and append the final position to the trail. -/
noncomputable def updatePuck (e : EditState) (decay : ℝ) (ps : List Particle)
    (fuel : ℕ) (dt : ℝ) (p : DynParticle) (points : List Vec3) :
    Option (DynParticle × List Vec3) :=
  match updateLoop e decay ps dt fuel 0 ((p.x, p.y, p.z), (p.vx, p.vy, p.vz)) with
  | none => none
  | some (_, pos, vel) =>
      some ({ p with x := pos.1, y := pos.2.1, z := pos.2.2,
                     vx := vel.1, vy := vel.2.1, vz := vel.2.2 },
            points ++ [pos])

lemma forceFn_eq_smul (e : EditState) (decay : ℝ) (ps : List Particle) :
    forceFn e decay ps = fun pt => jpow 10 decay • vf e decay ps pt := by
  funext pt
  refine Prod.ext ?_ (Prod.ext ?_ ?_) <;>
    simp [forceFn, smul_eq_mul, mul_comm]

/-- C3.  Each iteration of the substep loop with `runningTime < dt` computes
the candidate substep `h = max(1e-8, dt / max(10, |velocity|))`, clamps it to
`dt - runningTime`, and performs exactly ten leapfrog sub-iterations of step
size `h` whose force function is the field model scaled componentwise by
`10 ^ decay`. -/
theorem substep_structure :
    ∀ (e : EditState) (decay : ℝ) (ps : List Particle) (dt : ℝ) (n : ℕ)
      (rt : ℝ) (s : Vec3 × Vec3), rt < dt →
      updateLoop e decay ps dt (n + 1) rt s
        = updateLoop e decay ps dt n
            (rt + min (max 1e-8 (dt / max 10 (hypot3 s.2.1 s.2.2.1 s.2.2.2)))
              (dt - rt))
            ((fun t => leapfrog (fun pt => jpow 10 decay • vf e decay ps pt)
                t.2 t.1
                (min (max 1e-8 (dt / max 10 (hypot3 s.2.1 s.2.2.1 s.2.2.2)))
                  (dt - rt)))^[10] s) := by
  intro e decay ps dt n rt s hlt
  rw [show (fun pt => jpow 10 decay • vf e decay ps pt) = forceFn e decay ps
    from (forceFn_eq_smul e decay ps).symm]
  simp only [updateLoop, if_pos hlt]

/-- Witness for C3 at a concrete input. -/
theorem substep_structure_witness :
    (0 : ℝ) < 1 ∧
    updateLoop noEdit 2 [] 1 1 0 ((0, 0, 0), (0, 0, 0))
      = updateLoop noEdit 2 [] 1 0
          (0 + min (max 1e-8 (1 / max 10 (hypot3 0 0 0))) (1 - 0))
          ((fun t => leapfrog (fun pt => jpow 10 2 • vf noEdit 2 [] pt) t.2 t.1
              (min (max 1e-8 (1 / max 10 (hypot3 0 0 0))) (1 - 0)))^[10]
            ((0, 0, 0), (0, 0, 0))) :=
  ⟨by norm_num,
   substep_structure noEdit 2 [] 1 0 0 ((0, 0, 0), (0, 0, 0)) (by norm_num)⟩

lemma updateLoop_reaches (e : EditState) (decay : ℝ) (ps : List Particle)
    (dt : ℝ) :
    ∀ (n : ℕ) (rt : ℝ) (s : Vec3 × Vec3), rt ≤ dt →
      dt - rt ≤ (n : ℝ) * 1e-8 →
      ∃ s', updateLoop e decay ps dt (n + 1) rt s = some (dt, s') := by
  intro n
  induction n with
  | zero =>
      intro rt s hle hband
      have heq : rt = dt := by
        have : dt ≤ rt := by
          have h0 : dt - rt ≤ 0 := by simpa using hband
          linarith
        linarith
      refine ⟨s, ?_⟩
      have hnlt : ¬ dt < dt := lt_irrefl dt
      rw [heq]
      simp only [updateLoop, if_neg hnlt]
  | succ n ih =>
      intro rt s hle hband
      by_cases hlt : rt < dt
      · have hstep_le : min (max 1e-8 (dt / max 10 (hypot3 s.2.1 s.2.2.1 s.2.2.2)))
            (dt - rt) ≤ dt - rt := min_le_right _ _
        have hc8 : (1e-8 : ℝ)
            ≤ max 1e-8 (dt / max 10 (hypot3 s.2.1 s.2.2.1 s.2.2.2)) :=
          le_max_left _ _
        set hstep := min (max 1e-8 (dt / max 10 (hypot3 s.2.1 s.2.2.1 s.2.2.2)))
          (dt - rt) with hhs
        have hle' : rt + hstep ≤ dt := by linarith
        have hband' : dt - (rt + hstep) ≤ (n : ℝ) * 1e-8 := by
          rcases min_le_iff.mp (le_refl hstep) with h | h
          · rcases min_cases (max 1e-8 (dt / max 10 (hypot3 s.2.1 s.2.2.1 s.2.2.2)))
                (dt - rt) with ⟨heq2, _⟩ | ⟨heq2, _⟩
            · have h8 : (1e-8 : ℝ) ≤ hstep := by rw [hhs, heq2]; exact hc8
              have hcast : ((n : ℝ) + 1) * 1e-8 = (n : ℝ) * 1e-8 + 1e-8 := by ring
              have hb : dt - rt ≤ (n : ℝ) * 1e-8 + 1e-8 := by
                have := hband
                push_cast at this
                linarith
              linarith
            · have : hstep = dt - rt := by rw [hhs, heq2]
              have hpos : (0 : ℝ) ≤ (n : ℝ) * 1e-8 := by positivity
              linarith
          · have hpos : (0 : ℝ) ≤ (n : ℝ) * 1e-8 := by positivity
            linarith
        obtain ⟨s', hrec⟩ :=
          ih (rt + hstep) ((fun t => leapfrog (forceFn e decay ps) t.2 t.1
            hstep)^[10] s) hle' hband'
        refine ⟨s', ?_⟩
        rw [show updateLoop e decay ps dt (n + 1 + 1) rt s
            = updateLoop e decay ps dt (n + 1) (rt + hstep)
              ((fun t => leapfrog (forceFn e decay ps) t.2 t.1 hstep)^[10] s) by
          simp only [updateLoop, if_pos hlt]]
        exact hrec
      · have heq : rt = dt := le_antisymm hle (not_lt.mp hlt)
        refine ⟨s, ?_⟩
        have hnlt : ¬ dt < dt := lt_irrefl dt
        rw [heq]
        simp only [updateLoop, if_neg hnlt]

/-- C4.  For every `dt ≥ 0` and every initial body state the substep loop
terminates after finitely many iterations with `runningTime` equal to `dt`
exactly, and `updatePuck` returns the updated position and velocity and
appends the final position to the trail. -/
theorem integrator_terminates :
    ∀ (dt : ℝ), 0 ≤ dt →
    ∀ (e : EditState) (decay : ℝ) (ps : List Particle) (p : DynParticle)
      (pts : List Vec3),
      ∃ (n : ℕ) (s' : Vec3 × Vec3),
        updateLoop e decay ps dt n 0 ((p.x, p.y, p.z), (p.vx, p.vy, p.vz))
            = some (dt, s')
        ∧ updatePuck e decay ps n dt p pts
            = some ({ p with x := s'.1.1, y := s'.1.2.1, z := s'.1.2.2,
                             vx := s'.2.1, vy := s'.2.2.1, vz := s'.2.2.2 },
                    pts ++ [s'.1]) := by
  intro dt hdt e decay ps p pts
  have hband : dt - 0 ≤ ((⌈dt / 1e-8⌉₊ : ℕ) : ℝ) * 1e-8 := by
    have h1 : dt / 1e-8 ≤ ((⌈dt / 1e-8⌉₊ : ℕ) : ℝ) := Nat.le_ceil _
    have h2 : dt ≤ ((⌈dt / 1e-8⌉₊ : ℕ) : ℝ) * 1e-8 := by
      rw [← div_le_iff₀ (by norm_num : (0 : ℝ) < 1e-8)]
      exact h1
    linarith
  obtain ⟨s', hs⟩ := updateLoop_reaches e decay ps dt ⌈dt / 1e-8⌉₊ 0
    ((p.x, p.y, p.z), (p.vx, p.vy, p.vz)) hdt hband
  refine ⟨⌈dt / 1e-8⌉₊ + 1, s', hs, ?_⟩
  simp only [updatePuck, hs]

/-- Witness for C4 at a concrete input. -/
theorem integrator_terminates_witness :
    (0 : ℝ) ≤ 1 ∧
    ∃ (n : ℕ) (s' : Vec3 × Vec3),
      updateLoop noEdit 2 [] 1 n 0 ((0, 0, 0), (0, 0, 0)) = some (1, s')
      ∧ updatePuck noEdit 2 [] n 1 ⟨0, 0, 0, 0, 0, 0, 1⟩ []
          = some ({ x := s'.1.1, y := s'.1.2.1, z := s'.1.2.2,
                    vx := s'.2.1, vy := s'.2.2.1, vz := s'.2.2.2,
                    charge := 1 }, [] ++ [s'.1]) :=
  ⟨by norm_num,
   integrator_terminates 1 (by norm_num) noEdit 2 [] ⟨0, 0, 0, 0, 0, 0, 1⟩ []⟩

/-- C10.  The integration step never reads the puck charge: two bodies with
identical position and velocity but different charges produce identical
updated positions, velocities and appended trail points. -/
theorem trajectory_independent_of_puck_charge :
    ∀ (e : EditState) (decay : ℝ) (ps : List Particle) (fuel : ℕ) (dt : ℝ)
      (pts : List Vec3) (p q : DynParticle),
      p.x = q.x → p.y = q.y → p.z = q.z →
      p.vx = q.vx → p.vy = q.vy → p.vz = q.vz →
      Option.map
          (fun r => ((r.1.x, r.1.y, r.1.z), (r.1.vx, r.1.vy, r.1.vz), r.2))
          (updatePuck e decay ps fuel dt p pts)
        = Option.map
            (fun r => ((r.1.x, r.1.y, r.1.z), (r.1.vx, r.1.vy, r.1.vz), r.2))
            (updatePuck e decay ps fuel dt q pts) := by
  intro e decay ps fuel dt pts p q h1 h2 h3 h4 h5 h6
  have hE : updateLoop e decay ps dt fuel 0 ((p.x, p.y, p.z), (p.vx, p.vy, p.vz))
      = updateLoop e decay ps dt fuel 0 ((q.x, q.y, q.z), (q.vx, q.vy, q.vz)) := by
    rw [h1, h2, h3, h4, h5, h6]
  simp only [updatePuck, hE]
  cases hq : updateLoop e decay ps dt fuel 0
      ((q.x, q.y, q.z), (q.vx, q.vy, q.vz)) with
  | none => simp
  | some v =>
      obtain ⟨rt, pos, vel⟩ := v
      simp

/-- Witness for C10 at a concrete input: two pucks differing only in charge. -/
theorem trajectory_independent_of_puck_charge_witness :
    (⟨0, 0, 0, 0, 0, 0, 1⟩ : DynParticle).x
        = (⟨0, 0, 0, 0, 0, 0, 5⟩ : DynParticle).x
    ∧ (⟨0, 0, 0, 0, 0, 0, 1⟩ : DynParticle).y
        = (⟨0, 0, 0, 0, 0, 0, 5⟩ : DynParticle).y
    ∧ (⟨0, 0, 0, 0, 0, 0, 1⟩ : DynParticle).z
        = (⟨0, 0, 0, 0, 0, 0, 5⟩ : DynParticle).z
    ∧ (⟨0, 0, 0, 0, 0, 0, 1⟩ : DynParticle).vx
        = (⟨0, 0, 0, 0, 0, 0, 5⟩ : DynParticle).vx
    ∧ (⟨0, 0, 0, 0, 0, 0, 1⟩ : DynParticle).vy
        = (⟨0, 0, 0, 0, 0, 0, 5⟩ : DynParticle).vy
    ∧ (⟨0, 0, 0, 0, 0, 0, 1⟩ : DynParticle).vz
        = (⟨0, 0, 0, 0, 0, 0, 5⟩ : DynParticle).vz
    ∧ Option.map
        (fun r => ((r.1.x, r.1.y, r.1.z), (r.1.vx, r.1.vy, r.1.vz), r.2))
        (updatePuck noEdit 2 [] 0 0 ⟨0, 0, 0, 0, 0, 0, 1⟩ [])
      = Option.map
          (fun r => ((r.1.x, r.1.y, r.1.z), (r.1.vx, r.1.vy, r.1.vz), r.2))
          (updatePuck noEdit 2 [] 0 0 ⟨0, 0, 0, 0, 0, 0, 5⟩ []) :=
  ⟨rfl, rfl, rfl, rfl, rfl, rfl,
   trajectory_independent_of_puck_charge noEdit 2 [] 0 0 []
     ⟨0, 0, 0, 0, 0, 0, 1⟩ ⟨0, 0, 0, 0, 0, 0, 5⟩ rfl rfl rfl rfl rfl rfl⟩

/-- Embedding of the JavaScript expression `a || b` on numbers: `b` when `a`
is zero (falsy), `a` otherwise. -/
noncomputable def jsOr (a b : ℝ) : ℝ := if a = 0 then b else a

/-- The field magnitude `fieldMag = Math.hypot(fx, fy, fz)` computed by the
`vectorField` sampler (line 389 of `Scene.svelte`). -/
noncomputable def fieldMagAt (e : EditState) (decay : ℝ) (ps : List Particle)
    (pt : Vec3) : ℝ :=
  let w := vf e decay ps pt
  hypot3 w.1 w.2.1 w.2.2

/-- The glyph scale `scale = 1.5 / (fieldMag || 1)` of the sampler
(line 390). -/
noncomputable def sampleScale (e : EditState) (decay : ℝ) (ps : List Particle)
    (pt : Vec3) : ℝ :=
  1.5 / jsOr (fieldMagAt e decay ps pt) 1

/-- The scaled vector `dir = v.multiplyScalar(scale)` of the sampler
(line 391). -/
noncomputable def sampleDir (e : EditState) (decay : ℝ) (ps : List Particle)
    (pt : Vec3) : Vec3 :=
  let w := vf e decay ps pt
  let s := sampleScale e decay ps pt
  (w.1 * s, w.2.1 * s, w.2.2 * s)

/-- The three.js vector length. -/
noncomputable def v3length (v : Vec3) : ℝ := hypot3 v.1 v.2.1 v.2.2

/-- The three.js `normalize()`: divide by `length() || 1`. -/
noncomputable def v3normalize (v : Vec3) : Vec3 :=
  let L := jsOr (v3length v) 1
  (v.1 / L, v.2.1 / L, v.2.2 / L)

/-- The normalized direction `dirNorm = dir.clone().normalize()` of the
sampler (line 392). -/
noncomputable def sampleDirNorm (e : EditState) (decay : ℝ)
    (ps : List Particle) (pt : Vec3) : Vec3 :=
  v3normalize (sampleDir e decay ps pt)

/-- A single positive source at the origin used as a concrete sampler
configuration. -/
noncomputable def exampleSrc : List Particle :=
  [{ id := 1, x := 0, y := 0, z := 0, charge := 0.5 }]

/-- The x and z coordinates of the sampling lattice of `Scene.svelte`
(lines 362 to 371): the loop
`for (x = -FIELD_BOUND; x <= FIELD_BOUND; x += FIELD_STEP)` with
`FIELD_BOUND = 11` and `FIELD_STEP = 2` produces -11, -9, ..., 11. -/
noncomputable def fieldXZ : List ℝ :=
  (List.range 12).map (fun k => -11 + 2 * (k : ℝ))

/-- The y coordinates of the lattice: the loop
`for (y = 0; y <= 2 * FIELD_BOUND; y += FIELD_STEP)` produces 0, 2, ..., 22. -/
noncomputable def fieldY : List ℝ :=
  (List.range 12).map (fun k => 2 * (k : ℝ))

/-- The lattice `fieldPoints` of `Scene.svelte` in push order: the three
nested loops over x, y and z. -/
noncomputable def fieldPoints : List Vec3 :=
  fieldXZ.flatMap (fun x =>
    fieldY.flatMap (fun y => fieldXZ.map (fun z => (x, y, z))))

lemma hypot3_nonneg (a b c : ℝ) : 0 ≤ hypot3 a b c := Real.sqrt_nonneg _

lemma hypot3_mul_right (a b c s : ℝ) :
    hypot3 (a * s) (b * s) (c * s) = |s| * hypot3 a b c := by
  unfold hypot3
  rw [show (a * s) ^ 2 + (b * s) ^ 2 + (c * s) ^ 2
      = s ^ 2 * (a ^ 2 + b ^ 2 + c ^ 2) by ring,
    Real.sqrt_mul (sq_nonneg s), Real.sqrt_sq_eq_abs]

lemma vf_lattice_example :
    vf noEdit 2 exampleSrc (3, 0, 1)
      = (3 / (2 * Real.sqrt 10), 0, 1 / (2 * Real.sqrt 10)) := by
  have hsq : Real.sqrt 10 ^ 2 = 10 := Real.sq_sqrt (by norm_num)
  have hpos : 0 < Real.sqrt 10 := Real.sqrt_pos.mpr (by norm_num)
  have hne : Real.sqrt 10 ≠ 0 := ne_of_gt hpos
  have h1 : hypot3 (3 : ℝ) 0 1 = Real.sqrt 10 := by
    unfold hypot3
    norm_num
  have h3 : ¬ (Real.sqrt 10 < 2) := by
    intro hlt
    nlinarith [Real.sqrt_nonneg (10 : ℝ)]
  have h2 : jpow (Real.sqrt 10) (3 : ℝ) = 10 * Real.sqrt 10 := by
    rw [jpow, show (3 : ℝ) = ((3 : ℕ) : ℝ) by norm_num, Real.rpow_natCast,
      pow_succ, hsq]
  simp only [vf, exampleSrc, List.foldl_cons, List.foldl_nil, vfStep, effPos,
    noEdit]
  norm_num [RADIUS, h1, h2, h3]
  constructor <;> field_simp <;> ring

lemma fieldMag_lattice_example :
    fieldMagAt noEdit 2 exampleSrc (3, 0, 1) = 1 / 2 := by
  have hsq : Real.sqrt 10 ^ 2 = 10 := Real.sq_sqrt (by norm_num)
  have h40 : (2 * Real.sqrt 10) ^ 2 = 40 := by
    rw [mul_pow, hsq]
    norm_num
  simp only [fieldMagAt]
  rw [vf_lattice_example]
  show hypot3 (3 / (2 * Real.sqrt 10)) 0 (1 / (2 * Real.sqrt 10)) = 1 / 2
  unfold hypot3
  rw [div_pow, div_pow, h40]
  rw [show ((3 : ℝ) ^ 2 / 40 + 0 ^ 2 + 1 ^ 2 / 40) = (1 / 2) ^ 2 by norm_num,
    Real.sqrt_sq (by norm_num)]

/-- C6 counterexample.  The point `(3, 0, 1)` belongs to the sampling lattice
`fieldPoints`, and there, with a single source of charge `0.5` at the origin,
the field magnitude is `1 / 2`, strictly between 0 and 1, so the scale
computed by the code, `1.5 / (mag || 1) = 3`, differs from the claimed
`1.5 / max(mag, 1) = 1.5`. -/
theorem sampler_scale_counterexample :
    ((3 : ℝ), (0 : ℝ), (1 : ℝ)) ∈ fieldPoints
    ∧ sampleScale noEdit 2 exampleSrc (3, 0, 1)
        ≠ 1.5 / max (fieldMagAt noEdit 2 exampleSrc (3, 0, 1)) 1 := by
  constructor
  · have hx : (3 : ℝ) ∈ fieldXZ := by
      rw [fieldXZ, show (3 : ℝ) = -11 + 2 * ((7 : ℕ) : ℝ) by norm_num]
      exact List.mem_map_of_mem (fun k : ℕ => -11 + 2 * (k : ℝ))
        (List.mem_range.mpr (show (7 : ℕ) < 12 by norm_num))
    have hy : (0 : ℝ) ∈ fieldY := by
      rw [fieldY, show (0 : ℝ) = 2 * ((0 : ℕ) : ℝ) by norm_num]
      exact List.mem_map_of_mem (fun k : ℕ => 2 * (k : ℝ))
        (List.mem_range.mpr (show (0 : ℕ) < 12 by norm_num))
    have hz : (1 : ℝ) ∈ fieldXZ := by
      rw [fieldXZ, show (1 : ℝ) = -11 + 2 * ((6 : ℕ) : ℝ) by norm_num]
      exact List.mem_map_of_mem (fun k : ℕ => -11 + 2 * (k : ℝ))
        (List.mem_range.mpr (show (6 : ℕ) < 12 by norm_num))
    simp only [fieldPoints]
    exact List.mem_flatMap.mpr ⟨3, hx,
      List.mem_flatMap.mpr ⟨0, hy, List.mem_map.mpr ⟨1, hz, rfl⟩⟩⟩
  · rw [sampleScale, fieldMag_lattice_example,
      max_eq_right (by norm_num : (1 / 2 : ℝ) ≤ 1)]
    norm_num [jsOr]

/-- C6 amended.  The sampler computes the glyph scale as
`1.5 / magnitude` for nonzero magnitude and `1.5` for zero magnitude (the
JavaScript `fieldMag || 1` substitutes 1 only at exactly zero); consequently
every sample with nonzero magnitude has `|v * scale| = 1.5` exactly, and the
direction is `normalize(v * scale)`. -/
theorem sampler_scale_amended :
    ∀ (e : EditState) (decay : ℝ) (ps : List Particle) (pt : Vec3),
      (fieldMagAt e decay ps pt = 0 → sampleScale e decay ps pt = 1.5)
      ∧ (fieldMagAt e decay ps pt ≠ 0 →
          sampleScale e decay ps pt = 1.5 / fieldMagAt e decay ps pt
          ∧ v3length (sampleDir e decay ps pt) = 1.5)
      ∧ sampleDirNorm e decay ps pt = v3normalize (sampleDir e decay ps pt) := by
  intro e decay ps pt
  refine ⟨?_, ?_, rfl⟩
  · intro h0
    norm_num [sampleScale, jsOr, h0]
  · intro hne
    have hs : sampleScale e decay ps pt = 1.5 / fieldMagAt e decay ps pt := by
      simp [sampleScale, jsOr, hne]
    refine ⟨hs, ?_⟩
    have hmag0 : 0 ≤ fieldMagAt e decay ps pt := by
      simp only [fieldMagAt]
      exact hypot3_nonneg _ _ _
    have hmagpos : 0 < fieldMagAt e decay ps pt :=
      lt_of_le_of_ne hmag0 (Ne.symm hne)
    have hlen : v3length (sampleDir e decay ps pt)
        = |sampleScale e decay ps pt| * fieldMagAt e decay ps pt := by
      simp only [sampleDir, v3length, fieldMagAt]
      exact hypot3_mul_right _ _ _ _
    rw [hlen, hs,
      abs_of_pos (div_pos (by norm_num) hmagpos),
      div_mul_cancel₀ _ hne]

/-- Witness for the amended C6 at a concrete lattice point with nonzero
magnitude. -/
theorem sampler_scale_amended_witness :
    fieldMagAt noEdit 2 exampleSrc (3, 0, 1) ≠ 0
    ∧ (sampleScale noEdit 2 exampleSrc (3, 0, 1)
          = 1.5 / fieldMagAt noEdit 2 exampleSrc (3, 0, 1)
        ∧ v3length (sampleDir noEdit 2 exampleSrc (3, 0, 1)) = 1.5) :=
  ⟨by rw [fieldMag_lattice_example]; norm_num,
   (sampler_scale_amended noEdit 2 exampleSrc (3, 0, 1)).2.1
     (by rw [fieldMag_lattice_example]; norm_num)⟩

/-- The states of the particle store reachable from the initial single
default source by the user operations of `Scene.svelte`: add, delete,
edit-commit and reset. -/
inductive Reachable : List Particle → Prop
  | init : Reachable [defaultParticle]
  | add (ps : List Particle) (x y z c : ℝ) :
      Reachable ps → Reachable (addParticle ps x y z c)
  | del (ps : List Particle) (pid : ℤ) :
      Reachable ps → Reachable (deleteParticle ps pid)
  | commit (ps : List Particle) (eid : Option ℤ) (live : Vec3) :
      Reachable ps → Reachable (confirmEdit eid live ps)
  | reset (ps : List Particle) : Reachable ps → Reachable [defaultParticle]

lemma confirmEdit_map_id (eid : Option ℤ) (live : Vec3) (ps : List Particle) :
    (confirmEdit eid live ps).map Particle.id = ps.map Particle.id := by
  cases eid with
  | none => rfl
  | some i =>
      by_cases h : i = 0
      · simp [confirmEdit, h]
      · simp only [confirmEdit, if_neg h, List.map_map]
        apply List.map_congr_left
        intro p _
        by_cases hid : p.id = i <;> simp [Function.comp, hid]

lemma sorted_le_getLast? :
    ∀ (l : List ℤ) (m : ℤ), l.getLast? = some m → l.Sorted (· < ·) →
      ∀ a ∈ l, a ≤ m := by
  intro l
  induction l with
  | nil => intro m hm; simp at hm
  | cons b t ih =>
      intro m hm hs a ha
      cases t with
      | nil =>
          simp at hm ha
          omega
      | cons c u =>
          rw [List.getLast?_cons_cons] at hm
          have hs' : (c :: u).Sorted (· < ·) := (List.sorted_cons.mp hs).2
          rcases List.mem_cons.mp ha with rfl | hat
          · have hcm : c ≤ m := ih m hm hs' c (by simp)
            have hbc : a < c := (List.sorted_cons.mp hs).1 c (by simp)
            omega
          · exact ih m hm hs' a hat

lemma getLast?_map_id :
    ∀ (ps : List Particle),
      (ps.map Particle.id).getLast? = ps.getLast?.map Particle.id := by
  intro ps
  induction ps with
  | nil => rfl
  | cons p t ih =>
      cases t with
      | nil => rfl
      | cons q u =>
          simp only [List.map_cons, List.getLast?_cons_cons] at ih ⊢
          exact ih

lemma le_particle_num_of_sorted (s : List Particle)
    (hs : (s.map Particle.id).Sorted (· < ·)) :
    ∀ a ∈ s.map Particle.id, a < particle_num s := by
  intro a ha
  cases hL : s.getLast? with
  | none =>
      rw [List.getLast?_eq_none_iff] at hL
      subst hL
      simp at ha
  | some p =>
      have hlast : (s.map Particle.id).getLast? = some p.id := by
        rw [getLast?_map_id, hL]
        rfl
      have h1 : a ≤ p.id := sorted_le_getLast? _ _ hlast hs a ha
      have h2 : particle_num s = p.id + 1 := by simp [particle_num, hL]
      omega

/-- The sortedness invariant of the particle ids, proved by induction over
the reachable states. -/
lemma reachable_sorted :
    ∀ ps, Reachable ps → (ps.map Particle.id).Sorted (· < ·) := by
  intro ps h
  induction h with
  | init => simp [List.sorted_singleton]
  | add s x y z c _ ih =>
      rw [addParticle, List.map_append]
      refine List.pairwise_append.mpr ⟨ih, by simp, ?_⟩
      intro a ha b hb
      simp only [List.map_cons, List.map_nil, List.mem_singleton] at hb
      subst hb
      exact le_particle_num_of_sorted s ih a ha
  | del s pid _ ih =>
      exact List.Pairwise.sublist
        (List.Sublist.map _ (List.filter_sublist _)) ih
  | commit s eid live _ ih =>
      rw [confirmEdit_map_id]
      exact ih
  | reset s _ _ => simp [List.sorted_singleton]

/-- C9.  In every reachable store state the particle ids are strictly
increasing along the list, and every id is bounded by the id of the last
element. -/
theorem store_ids_strictly_increasing :
    ∀ ps, Reachable ps →
      (ps.map Particle.id).Sorted (· < ·)
      ∧ ∀ p ∈ ps, ∀ q, ps.getLast? = some q → p.id ≤ q.id := by
  intro ps h
  have hsort := reachable_sorted ps h
  refine ⟨hsort, ?_⟩
  intro p hp q hq
  refine sorted_le_getLast? (ps.map Particle.id) q.id ?_ hsort p.id
    (List.mem_map_of_mem _ hp)
  rw [getLast?_map_id, hq]
  rfl

/-- Witness for C9 at the initial store. -/
theorem store_ids_strictly_increasing_witness :
    Reachable [defaultParticle]
    ∧ (([defaultParticle].map Particle.id).Sorted (· < ·)
        ∧ ∀ p ∈ [defaultParticle], ∀ q,
            [defaultParticle].getLast? = some q → p.id ≤ q.id) :=
  ⟨Reachable.init, store_ids_strictly_increasing _ Reachable.init⟩

/-- The id the specification assigns on `add`: the maximum of the existing
ids plus one, or `1` when the store is empty. -/
def specNewId (ps : List Particle) : ℤ :=
  match ps with
  | [] => 1
  | p :: rest => rest.foldl (fun m q => max m q.id) p.id + 1

lemma foldl_max_sorted :
    ∀ (rest : List Particle) (p : Particle),
      ((p :: rest).map Particle.id).Sorted (· < ·) →
      rest.foldl (fun m q => max m q.id) p.id
        = ((p :: rest).getLast (List.cons_ne_nil p rest)).id := by
  intro rest
  induction rest with
  | nil => intro p _; rfl
  | cons q u ih =>
      intro p hs
      rw [List.map_cons, List.map_cons] at hs
      have h1 := List.sorted_cons.mp hs
      have hpq : p.id < q.id := h1.1 q.id (by simp)
      have hs' : ((q :: u).map Particle.id).Sorted (· < ·) := by
        rw [List.map_cons]
        exact h1.2
      have hmax : max p.id q.id = q.id := max_eq_right (le_of_lt hpq)
      rw [List.foldl_cons]
      show u.foldl (fun m r => max m r.id) (max p.id q.id) = _
      rw [hmax, ih q hs', List.getLast_cons (List.cons_ne_nil q u)]

lemma particle_num_eq_specNewId (ps : List Particle)
    (hs : (ps.map Particle.id).Sorted (· < ·)) :
    particle_num ps = specNewId ps := by
  cases ps with
  | nil => rfl
  | cons p rest =>
      have hL : (p :: rest).getLast?
          = some ((p :: rest).getLast (List.cons_ne_nil p rest)) :=
        List.getLast?_eq_getLast _ _
      simp only [particle_num, hL, specNewId]
      rw [foldl_max_sorted rest p hs]

/-- C7.  On every reachable store state, `addParticle` appends a single new
source carrying the given position and charge and the id
`max(existing ids) + 1` (or `1` on the empty store), leaving all existing
sources unchanged. -/
theorem add_assigns_max_plus_one :
    ∀ ps, Reachable ps → ∀ (x y z c : ℝ),
      addParticle ps x y z c
        = ps ++ [{ id := specNewId ps, x := x, y := y, z := z, charge := c }] := by
  intro ps h x y z c
  rw [addParticle, particle_num_eq_specNewId ps (reachable_sorted ps h)]

/-- Witness for C7 at the initial store. -/
theorem add_assigns_max_plus_one_witness :
    Reachable [defaultParticle]
    ∧ addParticle [defaultParticle] 0 0 0 1
        = [defaultParticle]
          ++ [{ id := specNewId [defaultParticle], x := 0, y := 0, z := 0,
                charge := 1 }] :=
  ⟨Reachable.init, add_assigns_max_plus_one _ Reachable.init 0 0 0 1⟩

/-- The scene state touched by the reset effect of `Scene.svelte`
(lines 185 to 215). -/
structure SceneState where
  puck : DynParticle
  points : List Vec3
  particles : List Particle
  edit : EditState
  clock : ℝ

/-- Embedding of the reset effect: clear the clock, leave edit mode, zero the
puck position and velocity, clear the trail and restore the default single
source. -/
noncomputable def resetEffect (s : SceneState) : SceneState :=
  { s with
    clock := 0,
    edit := { s.edit with editMode := false, editingParticleId := none },
    puck := { s.puck with x := 0, y := 0, z := 0, vx := 0, vy := 0, vz := 0 },
    points := [],
    particles := [defaultParticle] }

/-- C8.  After a reset from any state the puck is at the origin at rest, the
trail is empty, no ghost edit is active and the store holds exactly the
default source `{ id := 1, position := (0, 2, 0), charge := -0.001 }`. -/
theorem reset_restores_defaults :
    ∀ s : SceneState,
      (resetEffect s).puck.x = 0 ∧ (resetEffect s).puck.y = 0
      ∧ (resetEffect s).puck.z = 0 ∧ (resetEffect s).puck.vx = 0
      ∧ (resetEffect s).puck.vy = 0 ∧ (resetEffect s).puck.vz = 0
      ∧ (resetEffect s).points = []
      ∧ (resetEffect s).edit.editMode = false
      ∧ (resetEffect s).edit.editingParticleId = none
      ∧ (resetEffect s).particles
          = [{ id := 1, x := 0, y := 2, z := 0, charge := -0.001 }] := by
  intro s
  exact ⟨rfl, rfl, rfl, rfl, rfl, rfl, rfl, rfl, rfl, rfl⟩

end FieldSim
